import Mathlib

/-!
Shallow embedding of the debounced single-flight evaluation coordinator
declared in `src/uwp/MainPage.h` of the costau repository.

The repository fragment is a header only: it declares the coordinator's
data members (`_debounceTimer`, `_evalThread`, `_evalQueueMutex`,
`_evalQueue : std::optional<hstring>`) and the operations
(`InputChangedHandler`, `_StartEval`, `_EvalThread`), but the method
bodies are not under `src/`.  The operational behaviour is therefore
modelled from the specification's description of the three operations
(`OnInputChanged`, `OnDebounceElapsed`, `EvaluationTask`) over exactly
the state declared in the header.  Ghost fields (`evalStarted`,
`uiResults`, `inputLog`) record the observable history needed to state
the temporal properties; they do not influence the transitions.
-/

namespace Costau

/-- Modelled from the spec: the result an evaluation task reports back to
the UI collaborator — either a computed value or a display-able error
value (the actual parsing/evaluation engine is out of scope in the
source and in the spec). -/
inductive EvalResult where
  | ok (value : Int)
  | err (msg : String)
deriving DecidableEq, Repr

/-- Modelled from the spec: the coordinator state visible in
`src/uwp/MainPage.h`.

* `text` — the current content of the input box (supplied by the UI).
* `debounceTimer` — the pending single-shot timer, as `some id` with a
  generation id so that a cancelled (replaced) timer can be told apart
  from the live one; mirrors `_debounceTimer`.
* `nextId` — the next fresh timer generation id (ghost bookkeeping for
  timer identity).
* `evalQueue` — the pending-expression slot; mirrors
  `_evalQueue : std::optional<hstring>`.
* `evalThread` — `some expr` while an evaluation task for `expr` is
  active, `none` when idle; mirrors `_evalThread`.
* `evalStarted` — ghost log of expressions whose evaluation task has
  started, in start order.
* `uiResults` — ghost log of results delivered to the UI, in delivery
  order.
* `inputLog` — ghost log of every text that arrived via the
  input-changed handler, in arrival order. -/
structure CoordState where
  text : String
  debounceTimer : Option Nat
  nextId : Nat
  evalQueue : Option String
  evalThread : Option String
  evalStarted : List String
  uiResults : List EvalResult
  inputLog : List String
deriving DecidableEq, Repr

/-- The coordinator's initial state: empty input, no timer pending, the
slot empty, no evaluation task active, empty history. -/
def init : CoordState :=
  { text := ""
    debounceTimer := none
    nextId := 0
    evalQueue := none
    evalThread := none
    evalStarted := []
    uiResults := []
    inputLog := [] }

/-- Modelled from the spec: `OnInputChanged(text)` — called by the UI on
every edit.  Its only side effect is to record the new text and to
cancel/replace any pending debounce timer with a freshly armed one; no
evaluation starts synchronously and it always succeeds.  Mirrors the
declared `InputChangedHandler` of `MainPage.h`. -/
def onInputChanged (s : CoordState) (t : String) : CoordState :=
  { s with
    text := t
    debounceTimer := some s.nextId
    nextId := s.nextId + 1
    inputLog := s.inputLog ++ [t] }

/-- Modelled from the spec: `OnDebounceElapsed()` — the timer-fired
callback.  It places the current text into the pending-expression slot,
overwriting any unconsumed previous value, and, if no evaluation task is
active, starts one by draining the slot; if a task is active the value
stays queued for the completion handler.  Mirrors the missing body
behind `_debounceTimer` and `_StartEval`. -/
def onDebounceElapsed (s : CoordState) : CoordState :=
  match s.evalThread with
  | none =>
      { s with
        debounceTimer := none
        evalQueue := none
        evalThread := some s.text
        evalStarted := s.evalStarted ++ [s.text] }
  | some _ =>
      { s with
        debounceTimer := none
        evalQueue := some s.text }

/-- Modelled from the spec: the completion path of `EvaluationTask(expr)`
(the missing body of `_EvalThread`).  The result for the finished
expression `e` (computed by the external evaluation function `f`) is
reported to the UI; then the slot is acquired: if a newer expression was
queued during execution, a new evaluation task starts with it and the
slot is drained, otherwise the coordinator becomes idle. -/
def onEvalComplete (f : String → EvalResult) (s : CoordState) (e : String) :
    CoordState :=
  match s.evalQueue with
  | some q =>
      { s with
        evalQueue := none
        evalThread := some q
        evalStarted := s.evalStarted ++ [q]
        uiResults := s.uiResults ++ [f e] }
  | none =>
      { s with
        evalThread := none
        uiResults := s.uiResults ++ [f e] }

/-- The externally visible events the coordinator reacts to: an edit
arriving from the UI, the debounce timer with generation `id` firing,
and the active evaluation task completing. -/
inductive Event where
  | input (t : String)
  | fire (id : Nat)
  | complete
deriving DecidableEq, Repr

/-- Whether an event is an edit arriving from the UI. -/
def Event.isInput : Event → Bool
  | .input _ => true
  | _ => false

/-- One step of the coordinator: `none` when the event is not enabled
(a stale timer firing, or a completion with no active task). -/
def step (f : String → EvalResult) (ev : Event) (s : CoordState) :
    Option CoordState :=
  match ev with
  | .input t => some (onInputChanged s t)
  | .fire id =>
      if s.debounceTimer = some id then some (onDebounceElapsed s) else none
  | .complete =>
      match s.evalThread with
      | some e => some (onEvalComplete f s e)
      | none => none

/-- Run a finite sequence of events; `none` if any event is disabled. -/
def run (f : String → EvalResult) : List Event → CoordState →
    Option CoordState
  | [], s => some s
  | ev :: evs, s =>
      match step f ev s with
      | some s1 => run f evs s1
      | none => none

/-- A state is reachable when some finite event sequence leads to it
from the initial state. -/
def Reachable (f : String → EvalResult) (s : CoordState) : Prop :=
  ∃ evs, run f evs init = some s

/-- A sample external evaluation function used to instantiate theorems
at concrete inputs. -/
def sampleEval : String → EvalResult := fun s =>
  if s = "5/0" then .err "division by zero"
  else if s = "5/1" then .ok 5
  else .ok 0

/-- Modelled from the spec: the kinds of micro-actions performed inside
the coordinator's operations, distinguishing accesses to the
pending-expression slot from the rest. -/
inductive MicroAction where
  | slotWrite
  | slotReadClear
  | armTimer
  | evalWork
  | reportResult
deriving DecidableEq, Repr

/-- Whether a micro-action is an access (write or read-and-clear) to the
pending-expression slot `_evalQueue`. -/
def MicroAction.touchesSlot : MicroAction → Bool
  | .slotWrite => true
  | .slotReadClear => true
  | _ => false

/-- One micro-step of an operation: the action performed and whether the
`_evalQueueMutex` lock is held while it executes. -/
structure MicroStep where
  locked : Bool
  action : MicroAction
deriving DecidableEq, Repr

/-- Modelled from the spec: the micro-step trace of `OnInputChanged` —
it only rearms the debounce timer and never touches the slot, so it
takes no lock. -/
def inputChangedTrace : List MicroStep :=
  [⟨false, .armTimer⟩]

/-- Modelled from the spec: the micro-step trace of the debounce-timer
callback — it writes the slot and conditionally drains it
(read-and-clear) to start a task; each individual slot access holds the
lock for its own duration only. -/
def debounceElapsedTrace : List MicroStep :=
  [⟨true, .slotWrite⟩, ⟨true, .slotReadClear⟩]

/-- Modelled from the spec: the micro-step trace of the evaluation task —
the evaluation work and the result report run without the lock; only
the completion path's read-and-clear of the slot holds the lock. -/
def evalTaskTrace : List MicroStep :=
  [⟨false, .evalWork⟩, ⟨false, .reportResult⟩, ⟨true, .slotReadClear⟩]

/-- The micro-step traces of all three operations of the coordinator. -/
def coordinatorTraces : List (List MicroStep) :=
  [inputChangedTrace, debounceElapsedTrace, evalTaskTrace]

/-- A concrete coordinator state in which the evaluation of `"5/1"` is
in flight, `"5/0"` sits in the pending-expression slot, and the
debounce timer for a further edit `"x"` is armed; used to instantiate
theorems at concrete inputs. -/
def busyState : CoordState :=
  { text := "x"
    debounceTimer := some 2
    nextId := 3
    evalQueue := some "5/0"
    evalThread := some "5/1"
    evalStarted := ["5/1"]
    uiResults := []
    inputLog := ["5/1", "5/0", "x"] }

/-- The coordinator's state invariant:
an occupied slot implies an active evaluation task; a pending timer
carries the most recently issued generation id; after at least one edit,
the latest edit's text is the current text and is either still awaiting
its debounce, sitting in the slot, or already started; before any edit
everything is quiescent. -/
def Inv (s : CoordState) : Prop :=
  (s.evalQueue.isSome → s.evalThread.isSome) ∧
  (∀ id, s.debounceTimer = some id → id + 1 = s.nextId) ∧
  (∀ t, s.inputLog.getLast? = some t →
    s.text = t ∧
      (s.debounceTimer.isSome ∨ s.evalQueue = some t ∨ t ∈ s.evalStarted)) ∧
  (s.inputLog.getLast? = none →
    s.text = "" ∧ s.evalStarted = [] ∧ s.evalQueue = none ∧
      s.evalThread = none ∧ s.debounceTimer = none)

theorem inv_init : Inv init := by
  refine ⟨?_, ?_, ?_, ?_⟩ <;> simp [Inv, init]

theorem inv_step {f : String → EvalResult} {s s' : CoordState} {ev : Event}
    (hInv : Inv s) (h : step f ev s = some s') : Inv s' := by
  obtain ⟨h1, h2, h3, h4⟩ := hInv
  cases ev with
  | input t =>
      simp only [step, Option.some.injEq] at h
      subst h
      refine ⟨h1, ?_, ?_, ?_⟩
      · intro id hid
        simp only [onInputChanged, Option.some.injEq] at hid
        simp only [onInputChanged]
        omega
      · intro u hu
        simp only [onInputChanged, List.getLast?_concat, Option.some.injEq]
          at hu
        subst hu
        exact ⟨rfl, Or.inl rfl⟩
      · intro hnone
        simp [onInputChanged, List.getLast?_concat] at hnone
  | fire id =>
      simp only [step] at h
      split at h
      case isTrue hTimer =>
        simp only [Option.some.injEq] at h
        subst h
        have hlog : s.inputLog.getLast? ≠ none := by
          intro hn
          have := (h4 hn).2.2.2.2
          rw [this] at hTimer
          exact Option.noConfusion hTimer
        obtain ⟨t, ht⟩ := Option.ne_none_iff_exists'.mp hlog
        obtain ⟨htext, _⟩ := h3 t ht
        cases hE : s.evalThread with
        | none =>
            refine ⟨?_, ?_, ?_, ?_⟩
            · simp [onDebounceElapsed, hE]
            · simp [onDebounceElapsed, hE]
            · intro u hu
              simp only [onDebounceElapsed, hE] at hu ⊢
              rw [ht] at hu
              cases hu
              exact ⟨htext, Or.inr (Or.inr (by rw [htext]; simp))⟩
            · intro hn
              simp only [onDebounceElapsed, hE] at hn
              rw [ht] at hn
              exact Option.noConfusion hn
        | some e =>
            refine ⟨?_, ?_, ?_, ?_⟩
            · simp [onDebounceElapsed, hE]
            · simp [onDebounceElapsed, hE]
            · intro u hu
              simp only [onDebounceElapsed, hE] at hu ⊢
              rw [ht] at hu
              cases hu
              exact ⟨htext, Or.inr (Or.inl (by rw [htext]))⟩
            · intro hn
              simp only [onDebounceElapsed, hE] at hn
              rw [ht] at hn
              exact Option.noConfusion hn
      case isFalse =>
        exact Option.noConfusion h
  | complete =>
      simp only [step] at h
      cases hE : s.evalThread with
      | none =>
          rw [hE] at h
          exact Option.noConfusion h
      | some e =>
          rw [hE] at h
          simp only [Option.some.injEq] at h
          subst h
          have hlog : s.inputLog.getLast? ≠ none := by
            intro hn
            have := (h4 hn).2.2.2.1
            rw [this] at hE
            exact Option.noConfusion hE
          obtain ⟨t, ht⟩ := Option.ne_none_iff_exists'.mp hlog
          obtain ⟨htext, hdisj⟩ := h3 t ht
          cases hQ : s.evalQueue with
          | some q =>
              refine ⟨?_, ?_, ?_, ?_⟩
              · simp [onEvalComplete, hQ]
              · intro id hid
                simp only [onEvalComplete, hQ] at hid
                simp only [onEvalComplete, hQ]
                exact h2 id hid
              · intro u hu
                simp only [onEvalComplete, hQ] at hu ⊢
                rw [ht] at hu
                cases hu
                refine ⟨htext, ?_⟩
                rcases hdisj with hTimer | hSlot | hStart
                · exact Or.inl hTimer
                · rw [hQ] at hSlot
                  cases hSlot
                  exact Or.inr (Or.inr (by simp))
                · exact Or.inr (Or.inr (by simp [hStart]))
              · intro hn
                simp only [onEvalComplete, hQ] at hn
                rw [ht] at hn
                exact Option.noConfusion hn
          | none =>
              refine ⟨?_, ?_, ?_, ?_⟩
              · simp [onEvalComplete, hQ]
              · intro id hid
                simp only [onEvalComplete, hQ] at hid
                simp only [onEvalComplete, hQ]
                exact h2 id hid
              · intro u hu
                simp only [onEvalComplete, hQ] at hu ⊢
                rw [ht] at hu
                cases hu
                refine ⟨htext, ?_⟩
                rcases hdisj with hTimer | hSlot | hStart
                · exact Or.inl hTimer
                · rw [hQ] at hSlot
                  exact Option.noConfusion hSlot
                · exact Or.inr (Or.inr hStart)
              · intro hn
                simp only [onEvalComplete, hQ] at hn
                rw [ht] at hn
                exact Option.noConfusion hn

theorem inv_run {f : String → EvalResult} {evs : List Event}
    {s s' : CoordState} (hInv : Inv s) (h : run f evs s = some s') :
    Inv s' := by
  induction evs generalizing s with
  | nil =>
      simp only [run, Option.some.injEq] at h
      exact h ▸ hInv
  | cons ev evs ih =>
      simp only [run] at h
      cases hstep : step f ev s with
      | none => rw [hstep] at h; exact Option.noConfusion h
      | some s1 =>
          rw [hstep] at h
          exact ih (inv_step hInv hstep) h

theorem inv_reachable {f : String → EvalResult} {s : CoordState}
    (h : Reachable f s) : Inv s := by
  obtain ⟨evs, hrun⟩ := h
  exact inv_run inv_init hrun

theorem run_append (f : String → EvalResult) (a b : List Event)
    (s : CoordState) :
    run f (a ++ b) s = (run f a s).bind (run f b) := by
  induction a generalizing s with
  | nil => simp [run]
  | cons ev evs ih =>
      simp only [List.cons_append, run]
      cases step f ev s with
      | none => simp
      | some s1 => simp [ih]

theorem step_nextId_le {f : String → EvalResult} {ev : Event}
    {s s' : CoordState} (h : step f ev s = some s') :
    s.nextId ≤ s'.nextId := by
  cases ev with
  | input t =>
      simp only [step, Option.some.injEq] at h
      subst h
      simp [onInputChanged]
  | fire id =>
      simp only [step] at h
      split at h
      · simp only [Option.some.injEq] at h
        subst h
        cases hE : s.evalThread <;> simp [onDebounceElapsed, hE]
      · exact Option.noConfusion h
  | complete =>
      simp only [step] at h
      cases hE : s.evalThread with
      | none => rw [hE] at h; exact Option.noConfusion h
      | some e =>
          rw [hE] at h
          simp only [Option.some.injEq] at h
          subst h
          cases hQ : s.evalQueue <;> simp [onEvalComplete, hQ]

theorem run_nextId_le {f : String → EvalResult} {evs : List Event}
    {s s' : CoordState} (h : run f evs s = some s') :
    s.nextId ≤ s'.nextId := by
  induction evs generalizing s with
  | nil =>
      simp only [run, Option.some.injEq] at h
      exact h ▸ le_refl _
  | cons ev evs ih =>
      simp only [run] at h
      cases hstep : step f ev s with
      | none => rw [hstep] at h; exact Option.noConfusion h
      | some s1 =>
          rw [hstep] at h
          exact le_trans (step_nextId_le hstep) (ih h)

theorem reachable_run {f : String → EvalResult} {s : CoordState}
    {evs : List Event} {s' : CoordState} (h : Reachable f s)
    (hrun : run f evs s = some s') : Reachable f s' := by
  obtain ⟨evs0, h0⟩ := h
  refine ⟨evs0 ++ evs, ?_⟩
  rw [run_append, h0]
  exact hrun

theorem run_cons_input (f : String → EvalResult) (t : String)
    (evs : List Event) (s : CoordState) :
    run f (Event.input t :: evs) s = run f evs (onInputChanged s t) := by
  simp [run, step]

theorem run_inputs (f : String → EvalResult) (ts : List String)
    (hne : ts ≠ []) (s : CoordState) :
    run f (ts.map Event.input) s = some
      { s with
        text := ts.getLast hne
        debounceTimer := some (s.nextId + ts.length - 1)
        nextId := s.nextId + ts.length
        inputLog := s.inputLog ++ ts } := by
  induction ts generalizing s with
  | nil => exact absurd rfl hne
  | cons t rest ih =>
      cases rest with
      | nil =>
          simp [run, step, onInputChanged]
      | cons u rest2 =>
          have hne2 : u :: rest2 ≠ [] := by simp
          rw [List.map_cons, run_cons_input, ih hne2]
          simp only [onInputChanged, Option.some.injEq, CoordState.mk.injEq,
            true_and, and_true]
          refine ⟨(List.getLast_cons hne2).symm, ?_, ?_, ?_⟩
          · simp only [List.length_cons]
            congr 1
            omega
          · simp only [List.length_cons]
            omega
          · simp

theorem option_toList_length_le_one {α : Type} (o : Option α) :
    o.toList.length ≤ 1 := by
  cases o <;> simp

/-- C1: for every enabled step of the coordinator, at most one
evaluation task is active afterwards, and whenever a new evaluation task
starts, it starts with the pending-expression slot drained and only when
either no task was previously active or the step is the completion of
the previous task. -/
theorem single_flight_invariant (f : String → EvalResult)
    (s s' : CoordState) (ev : Event) (h : step f ev s = some s') :
    s'.evalThread.toList.length ≤ 1 ∧
    (s'.evalStarted ≠ s.evalStarted →
      ∃ x, s'.evalThread = some x ∧
        s'.evalStarted = s.evalStarted ++ [x] ∧
        s'.evalQueue = none ∧
        (s.evalThread = none ∨ ev = Event.complete)) := by
  refine ⟨option_toList_length_le_one _, ?_⟩
  intro hne
  cases ev with
  | input t =>
      simp only [step, Option.some.injEq] at h
      subst h
      exact absurd rfl hne
  | fire id =>
      simp only [step] at h
      split at h
      · simp only [Option.some.injEq] at h
        subst h
        cases hE : s.evalThread with
        | none =>
            refine ⟨s.text, ?_, ?_, ?_, Or.inl rfl⟩ <;>
              simp [onDebounceElapsed, hE]
        | some e =>
            simp only [onDebounceElapsed, hE] at hne
            exact absurd rfl hne
      · exact Option.noConfusion h
  | complete =>
      simp only [step] at h
      cases hE : s.evalThread with
      | none => rw [hE] at h; exact Option.noConfusion h
      | some e =>
          rw [hE] at h
          simp only [Option.some.injEq] at h
          subst h
          cases hQ : s.evalQueue with
          | none =>
              simp only [onEvalComplete, hQ] at hne
              exact absurd rfl hne
          | some q =>
              refine ⟨q, ?_, ?_, ?_, Or.inr rfl⟩ <;>
                simp [onEvalComplete, hQ]

/-- Witness for C1 at a concrete step: the timer fires in the initial
state right after the edit `"1"`, starting the one evaluation task. -/
theorem single_flight_invariant_witness :
    (onDebounceElapsed (onInputChanged init "1")).evalThread.toList.length
        ≤ 1 ∧
    ((onDebounceElapsed (onInputChanged init "1")).evalStarted ≠
        (onInputChanged init "1").evalStarted →
      ∃ x, (onDebounceElapsed (onInputChanged init "1")).evalThread =
          some x ∧
        (onDebounceElapsed (onInputChanged init "1")).evalStarted =
          (onInputChanged init "1").evalStarted ++ [x] ∧
        (onDebounceElapsed (onInputChanged init "1")).evalQueue = none ∧
        ((onInputChanged init "1").evalThread = none ∨
          Event.fire 0 = Event.complete)) :=
  single_flight_invariant sampleEval (onInputChanged init "1")
    (onDebounceElapsed (onInputChanged init "1")) (Event.fire 0) rfl

/-- C4: when an expression is queued in the slot while an evaluation
task is running, the completion of the running task drains the slot and
starts exactly one new evaluation task, on the queued text. -/
theorem completion_starts_queued (f : String → EvalResult)
    (s : CoordState) (e q : String) (he : s.evalThread = some e)
    (hq : s.evalQueue = some q) :
    step f Event.complete s = some (onEvalComplete f s e) ∧
    (onEvalComplete f s e).evalThread = some q ∧
    (onEvalComplete f s e).evalQueue = none ∧
    (onEvalComplete f s e).evalStarted = s.evalStarted ++ [q] ∧
    (onEvalComplete f s e).uiResults = s.uiResults ++ [f e] := by
  refine ⟨?_, ?_, ?_, ?_, ?_⟩ <;> simp [step, onEvalComplete, he, hq]

/-- Witness for C4: in `busyState`, completing the running `"5/1"` task
starts the queued `"5/0"` evaluation. -/
theorem completion_starts_queued_witness :
    step sampleEval Event.complete busyState =
        some (onEvalComplete sampleEval busyState "5/1") ∧
    (onEvalComplete sampleEval busyState "5/1").evalThread = some "5/0" ∧
    (onEvalComplete sampleEval busyState "5/1").evalQueue = none ∧
    (onEvalComplete sampleEval busyState "5/1").evalStarted =
      busyState.evalStarted ++ ["5/0"] ∧
    (onEvalComplete sampleEval busyState "5/1").uiResults =
      busyState.uiResults ++ [sampleEval "5/1"] :=
  completion_starts_queued sampleEval busyState "5/1" "5/0" rfl rfl

/-- C5: the pending-expression slot holds at most one value before and
after every enabled step, and the one write to the slot — the debounce
callback firing while a task is active — stores the current text
regardless of any unconsumed previous value (last-write-wins). -/
theorem slot_last_write_wins (f : String → EvalResult)
    (s s' : CoordState) (ev : Event) (h : step f ev s = some s') :
    s.evalQueue.toList.length ≤ 1 ∧
    s'.evalQueue.toList.length ≤ 1 ∧
    (∀ id, ev = Event.fire id → s.evalThread.isSome →
      s'.evalQueue = some s.text) := by
  refine ⟨option_toList_length_le_one _, option_toList_length_le_one _, ?_⟩
  intro id hev hthread
  subst hev
  simp only [step] at h
  split at h
  · simp only [Option.some.injEq] at h
    subst h
    obtain ⟨e, hE⟩ := Option.isSome_iff_exists.mp hthread
    simp [onDebounceElapsed, hE]
  · exact Option.noConfusion h

/-- Witness for C5: in `busyState` the slot already holds `"5/0"`; the
timer firing overwrites it with the current text `"x"`. -/
theorem slot_last_write_wins_witness :
    busyState.evalQueue.toList.length ≤ 1 ∧
    (onDebounceElapsed busyState).evalQueue.toList.length ≤ 1 ∧
    (∀ id, Event.fire 2 = Event.fire id → busyState.evalThread.isSome →
      (onDebounceElapsed busyState).evalQueue = some busyState.text) :=
  slot_last_write_wins sampleEval busyState (onDebounceElapsed busyState)
    (Event.fire 2) rfl

/-- C7: the input-changed handler always succeeds, and its only side
effects are recording the new text and replacing any pending debounce
timer with a freshly armed one; the slot, the evaluation task, and the
started/delivered histories are untouched, so no evaluation starts
synchronously. -/
theorem input_handler_effects (f : String → EvalResult) (s : CoordState)
    (t : String) :
    step f (Event.input t) s = some (onInputChanged s t) ∧
    (onInputChanged s t).debounceTimer = some s.nextId ∧
    (onInputChanged s t).text = t ∧
    (onInputChanged s t).evalQueue = s.evalQueue ∧
    (onInputChanged s t).evalThread = s.evalThread ∧
    (onInputChanged s t).evalStarted = s.evalStarted ∧
    (onInputChanged s t).uiResults = s.uiResults ∧
    (onInputChanged s t).inputLog = s.inputLog ++ [t] :=
  ⟨rfl, rfl, rfl, rfl, rfl, rfl, rfl, rfl⟩

/-- C9: in the micro-step traces of the three coordinator operations,
the `_evalQueueMutex` lock is held exactly during the individual slot
accesses (each write and each read-and-clear), and never while the
evaluation work or the result report runs. -/
theorem slot_access_locking :
    (coordinatorTraces.all fun tr =>
      tr.all fun m => m.locked == m.action.touchesSlot) = true := by
  decide

/-- C2: from every reachable state, the text of the last edit that
arrived is eventually evaluated — a finite sequence of timer firings and
task completions, with no further edits, leads to a state whose log of
started evaluations contains it. -/
theorem last_edit_eventually_evaluated (f : String → EvalResult)
    (s : CoordState) (hs : Reachable f s) (t : String)
    (ht : s.inputLog.getLast? = some t) :
    ∃ evs s', run f evs s = some s' ∧ t ∈ s'.evalStarted ∧
      ∀ e ∈ evs, e.isInput = false := by
  obtain ⟨h1, h2, h3, h4⟩ := inv_reachable hs
  obtain ⟨htext, hdisj⟩ := h3 t ht
  rcases hdisj with hTimer | hSlot | hStart
  · obtain ⟨id, hid⟩ := Option.isSome_iff_exists.mp hTimer
    cases hE : s.evalThread with
    | none =>
        refine ⟨[Event.fire id], onDebounceElapsed s, ?_, ?_, ?_⟩
        · simp [run, step, hid]
        · simp [onDebounceElapsed, hE, htext]
        · simp [Event.isInput]
    | some e =>
        refine ⟨[Event.fire id, Event.complete],
          onEvalComplete f (onDebounceElapsed s) e, ?_, ?_, ?_⟩
        · simp [run, step, hid, onDebounceElapsed, hE]
        · simp [onEvalComplete, onDebounceElapsed, hE, htext]
        · simp [Event.isInput]
  · have hT : s.evalThread.isSome := h1 (by simp [hSlot])
    obtain ⟨e, hE⟩ := Option.isSome_iff_exists.mp hT
    refine ⟨[Event.complete], onEvalComplete f s e, ?_, ?_, ?_⟩
    · simp [run, step, hE]
    · simp [onEvalComplete, hSlot]
    · simp [Event.isInput]
  · exact ⟨[], s, by simp [run], hStart, by simp⟩

/-- Witness for C2: right after the single edit `"1+2"` from the initial
state, that text is eventually evaluated without further edits. -/
theorem last_edit_eventually_evaluated_witness :
    ∃ evs s', run sampleEval evs (onInputChanged init "1+2") = some s' ∧
      "1+2" ∈ s'.evalStarted ∧ ∀ e ∈ evs, e.isInput = false :=
  last_edit_eventually_evaluated sampleEval (onInputChanged init "1+2")
    ⟨[Event.input "1+2"], rfl⟩ "1+2" rfl

/-- C3: for every nonempty burst of edits arriving from the initial
state before the debounce timer ever fires, followed by the timer firing
and the one task completing, exactly one evaluation runs and it is of
the final edit's text; no intermediate text is ever evaluated. -/
theorem burst_coalesces (f : String → EvalResult) (ts : List String)
    (hne : ts ≠ []) :
    ∃ s', run f (ts.map Event.input ++
        [Event.fire (ts.length - 1), Event.complete]) init = some s' ∧
      s'.evalStarted = [ts.getLast hne] ∧
      s'.uiResults = [f (ts.getLast hne)] ∧
      s'.evalThread = none ∧ s'.evalQueue = none := by
  refine ⟨{ text := ts.getLast hne
            debounceTimer := none
            nextId := ts.length
            evalQueue := none
            evalThread := none
            evalStarted := [ts.getLast hne]
            uiResults := [f (ts.getLast hne)]
            inputLog := ts }, ?_, rfl, rfl, rfl, rfl⟩
  rw [run_append, run_inputs f ts hne init]
  simp [run, step, onDebounceElapsed, onEvalComplete, init]

/-- Witness for C3: the burst `"1"`, `"1+"`, `"1+2"` from the initial
state results in exactly one evaluation, of `"1+2"`. -/
theorem burst_coalesces_witness :
    ∃ s', run sampleEval ((["1", "1+", "1+2"].map Event.input) ++
        [Event.fire (["1", "1+", "1+2"].length - 1), Event.complete])
        init = some s' ∧
      s'.evalStarted = [["1", "1+", "1+2"].getLast (by simp)] ∧
      s'.uiResults = [sampleEval (["1", "1+", "1+2"].getLast (by simp))] ∧
      s'.evalThread = none ∧ s'.evalQueue = none :=
  burst_coalesces sampleEval ["1", "1+", "1+2"] (by simp)

/-- C6: when the evaluation of `"5/1"` is in flight with `"5/0"` queued
in the slot, and the external evaluation maps `"5/1"` to the value `5`
and `"5/0"` to an error, the two completions deliver the value `5` and
then the error to the UI — in that order and never the reverse — the
coordinator does not get stuck, the slot is drained, the queued
evaluation was started, and afterwards any further edit is accepted. -/
theorem error_isolation (f : String → EvalResult) (s : CoordState)
    (d : String) (he : s.evalThread = some "5/1")
    (hq : s.evalQueue = some "5/0")
    (h1 : f "5/1" = EvalResult.ok 5) (h2 : f "5/0" = EvalResult.err d) :
    ∃ s', run f [Event.complete, Event.complete] s = some s' ∧
      s'.uiResults = s.uiResults ++ [EvalResult.ok 5, EvalResult.err d] ∧
      s'.evalThread = none ∧ s'.evalQueue = none ∧
      s'.evalStarted = s.evalStarted ++ ["5/0"] ∧
      (∀ t, step f (Event.input t) s' = some (onInputChanged s' t)) := by
  refine ⟨{ text := s.text
            debounceTimer := s.debounceTimer
            nextId := s.nextId
            evalQueue := none
            evalThread := none
            evalStarted := s.evalStarted ++ ["5/0"]
            uiResults := s.uiResults ++ [EvalResult.ok 5, EvalResult.err d]
            inputLog := s.inputLog }, ?_, rfl, rfl, rfl, rfl,
    fun t => rfl⟩
  simp [run, step, onEvalComplete, he, hq, h1, h2]

/-- Witness for C6: `busyState` with the sample evaluation function —
the UI observes the value `5` and then the division error, in order. -/
theorem error_isolation_witness :
    ∃ s', run sampleEval [Event.complete, Event.complete] busyState =
        some s' ∧
      s'.uiResults = busyState.uiResults ++
        [EvalResult.ok 5, EvalResult.err "division by zero"] ∧
      s'.evalThread = none ∧ s'.evalQueue = none ∧
      s'.evalStarted = busyState.evalStarted ++ ["5/0"] ∧
      (∀ t, step sampleEval (Event.input t) s' =
        some (onInputChanged s' t)) :=
  error_isolation sampleEval busyState "division by zero" rfl rfl rfl rfl

/-- C8: in every reachable state at most one debounce timer is pending;
an arriving edit replaces the pending timer with a freshly armed one of
a distinct generation, and the replaced (cancelled) timer's firing is
disabled in every state reachable from then on — its callback never
runs. -/
theorem timer_rearm_cancels (f : String → EvalResult) (s : CoordState)
    (hs : Reachable f s) (t : String) (id : Nat)
    (hid : s.debounceTimer = some id) (evs : List Event)
    (s2 : CoordState) (hrun : run f evs (onInputChanged s t) = some s2) :
    s.debounceTimer.toList.length ≤ 1 ∧
    (onInputChanged s t).debounceTimer = some s.nextId ∧
    id ≠ s.nextId ∧
    step f (Event.fire id) s2 = none := by
  obtain ⟨-, h2, -, -⟩ := inv_reachable hs
  have hgen : id + 1 = s.nextId := h2 id hid
  have hstep1 : run f [Event.input t] s = some (onInputChanged s t) := by
    simp [run, step]
  have hreach2 : Reachable f s2 :=
    reachable_run (reachable_run hs hstep1) hrun
  obtain ⟨-, h2b, -, -⟩ := inv_reachable hreach2
  have hmono : (onInputChanged s t).nextId ≤ s2.nextId := run_nextId_le hrun
  simp only [onInputChanged] at hmono
  refine ⟨option_toList_length_le_one _, rfl, by omega, ?_⟩
  simp only [step]
  split
  case isTrue hguard =>
    have := h2b id hguard
    omega
  case isFalse => rfl

/-- Witness for C8: after the edit `"a"` from the initial state and a
rearm by the edit `"b"`, the cancelled timer of generation `0` cannot
fire. -/
theorem timer_rearm_cancels_witness :
    (onInputChanged init "a").debounceTimer.toList.length ≤ 1 ∧
    (onInputChanged (onInputChanged init "a") "b").debounceTimer =
      some (onInputChanged init "a").nextId ∧
    0 ≠ (onInputChanged init "a").nextId ∧
    step sampleEval (Event.fire 0)
      (onInputChanged (onInputChanged init "a") "b") = none :=
  timer_rearm_cancels sampleEval (onInputChanged init "a")
    ⟨[Event.input "a"], rfl⟩ "b" 0 rfl []
    (onInputChanged (onInputChanged init "a") "b") rfl

/-- C10: two debounce cycles on the same text `t` from an idle
coordinator run two evaluations, both of `t`, and deliver two identical
results to the UI (the result of `f` at `t`, twice). -/
theorem eval_idempotent (f : String → EvalResult) (s : CoordState)
    (t : String) (h1 : s.evalThread = none) (h2 : s.evalQueue = none) :
    ∃ s', run f [Event.input t, Event.fire s.nextId, Event.complete,
        Event.input t, Event.fire (s.nextId + 1), Event.complete] s =
        some s' ∧
      s'.evalStarted = s.evalStarted ++ [t, t] ∧
      s'.uiResults = s.uiResults ++ [f t, f t] := by
  refine ⟨{ text := t
            debounceTimer := none
            nextId := s.nextId + 2
            evalQueue := none
            evalThread := none
            evalStarted := s.evalStarted ++ [t, t]
            uiResults := s.uiResults ++ [f t, f t]
            inputLog := s.inputLog ++ [t, t] }, ?_, rfl, rfl⟩
  simp [run, step, onInputChanged, onDebounceElapsed, onEvalComplete,
    h1, h2]

/-- Witness for C10: evaluating `"2+2"` over two debounce cycles from
the initial state delivers the same result twice. -/
theorem eval_idempotent_witness :
    ∃ s', run sampleEval [Event.input "2+2", Event.fire init.nextId,
        Event.complete, Event.input "2+2", Event.fire (init.nextId + 1),
        Event.complete] init = some s' ∧
      s'.evalStarted = init.evalStarted ++ ["2+2", "2+2"] ∧
      s'.uiResults = init.uiResults ++
        [sampleEval "2+2", sampleEval "2+2"] :=
  eval_idempotent sampleEval init "2+2" rfl rfl

end Costau
